/-
Verification of the incremental ledger-scanning and balance-reconstruction
engine of `get_tx_history.py` (a single-token XRPL transfer-history
reconstructor).

The Python source is shallowly embedded:
- JSON values handled by the program become the inductive `JValue`;
  `dict.get(k, default)` becomes `pyGet` (raising `AttributeError` on a
  non-dict receiver is modelled as `Except.error ()`), `d[k]` becomes
  `getItem` (a `KeyError` / `TypeError` is `Except.error ()`).
- Python `float` amounts are modelled as exact rationals `Rat`; `float(x)`
  becomes `pyFloat` (accepting numbers, booleans and plain decimal strings,
  the formats the program's data uses).
- Python dicts keyed by addresses become insertion-ordered association
  lists (`dictSet` / `getB`); Python sets become duplicate-free lists in
  insertion order (`pySetAdd` / `pySetUnion`).
- The remote XRPL node is an oracle (`Server`) giving the scripted HTTP
  responses for each (window, address) query; `safe_post` keeps its
  "return the body on HTTP 200, else None" behaviour (its diagnostic log
  file and rotation counters are observational only and are not modelled).
- Database and checkpoint effects are recorded in an event trace (`Event`):
  the `INSERT ... ON CONFLICT DO NOTHING` of `insert_transfer`, each
  checkpoint write, and each `conn.commit()`.
- Fallible code returns `Except Unit`; a raised Python exception is
  `Except.error ()`.
-/
import Mathlib

attribute [local semireducible] Rat.add Rat.sub

/-- JSON-like values as handled by the Python program: `None`, booleans,
numbers (modelled exactly as rationals), strings, lists and dicts
(insertion-ordered association lists with string keys). -/
inductive JValue where
  | jnull
  | jbool (b : Bool)
  | jnum (q : Rat)
  | jstr (s : String)
  | jarr (xs : List JValue)
  | jobj (fields : List (String × JValue))

open JValue

mutual

def beqJ : JValue → JValue → Bool
  | jnull, jnull => true
  | jbool a, jbool b => a == b
  | jnum a, jnum b => a == b
  | jstr a, jstr b => a == b
  | jarr xs, jarr ys => beqJL xs ys
  | jobj fs, jobj gs => beqJO fs gs
  | _, _ => false

def beqJL : List JValue → List JValue → Bool
  | [], [] => true
  | x :: xs, y :: ys => beqJ x y && beqJL xs ys
  | _, _ => false

def beqJO : List (String × JValue) → List (String × JValue) → Bool
  | [], [] => true
  | (k, v) :: xs, (k2, v2) :: ys => k == k2 && beqJ v v2 && beqJO xs ys
  | _, _ => false

end

mutual

theorem beqJ_iff : ∀ a b : JValue, beqJ a b = true ↔ a = b
  | jnull, b => by cases b <;> simp [beqJ]
  | jbool x, b => by cases b <;> simp [beqJ]
  | jnum x, b => by cases b <;> simp [beqJ]
  | jstr x, b => by cases b <;> simp [beqJ]
  | jarr xs, b => by
      cases b <;> simp [beqJ]
      exact beqJL_iff xs _
  | jobj fs, b => by
      cases b <;> simp [beqJ]
      exact beqJO_iff fs _

theorem beqJL_iff : ∀ xs ys : List JValue, beqJL xs ys = true ↔ xs = ys
  | [], ys => by cases ys <;> simp [beqJL]
  | x :: xs, ys => by
      cases ys with
      | nil => simp [beqJL]
      | cons y ys => simp [beqJL, beqJ_iff x y, beqJL_iff xs ys]

theorem beqJO_iff : ∀ xs ys : List (String × JValue), beqJO xs ys = true ↔ xs = ys
  | [], ys => by cases ys <;> simp [beqJO]
  | (k, v) :: xs, ys => by
      cases ys with
      | nil => simp [beqJO]
      | cons p ys =>
          obtain ⟨k2, v2⟩ := p
          simp [beqJO, beqJ_iff v v2, beqJO_iff xs ys, and_assoc]

end

instance : DecidableEq JValue := fun a b => decidable_of_iff _ (beqJ_iff a b)

instance {ε α : Type} [DecidableEq ε] [DecidableEq α] : DecidableEq (Except ε α) := fun a b =>
  match a, b with
  | .ok x, .ok y => decidable_of_iff (x = y) (by simp)
  | .error x, .error y => decidable_of_iff (x = y) (by simp)
  | .ok _, .error _ => isFalse (by simp)
  | .error _, .ok _ => isFalse (by simp)

/-- Constant `ISSUER_ADDRESS` of the source (line 44). -/
def ISSUER_ADDRESS : String := "rnQUEEg8yyjrwk9FhyXpKavHyCRJM9BDMW"

/-- Constant `PFT_CURRENCY_CODE` of the source (line 45). -/
def PFT_CURRENCY_CODE : String := "PFT"

/-- Constant `LEDGERS_PER_DAY` of the source (line 47). -/
def LEDGERS_PER_DAY : Nat := 22700

/-- Constant `START_LEDGER` of the source (line 48). -/
def START_LEDGER : Nat := 87570565

/-- The `number_of_days = 368` configured in `main` (line 243). The run model
below is stated for an arbitrary day count, of which this is the configured
instance. -/
def NUMBER_OF_DAYS : Nat := 368

/-- Python `receiver.get(key, default)`: returns the stored value, or
`default` when the key is absent; raises `AttributeError` when the receiver
is not a dict. -/
def pyGet (v : JValue) (key : String) (default : JValue) : Except Unit JValue :=
  match v with
  | jobj fs => .ok ((List.lookup key fs).getD default)
  | _ => .error ()

/-- Python subscription `receiver[key]` with a string key: raises `KeyError`
when absent and `TypeError` when the receiver is not a dict. -/
def getItem (v : JValue) (key : String) : Except Unit JValue :=
  match v with
  | jobj fs =>
      match List.lookup key fs with
      | some x => .ok x
      | none => .error ()
  | _ => .error ()

/-- Pure total field lookup used by spec-side predicates: `some` value when
`v` is a dict holding `key`, else `none`. -/
def objLookup : JValue → String → Option JValue
  | jobj fs, key => List.lookup key fs
  | _, _ => none

/-- Python truthiness (`if not x`) for the values the program handles. -/
def pyFalsy : JValue → Bool
  | jnull => true
  | jbool b => !b
  | jnum q => decide (q = 0)
  | jstr s => decide (s = "")
  | jarr xs => xs.isEmpty
  | jobj fs => fs.isEmpty

def digitsToNat : List Char → Option Nat
  | [] => some 0
  | c :: cs =>
      if c.isDigit then
        (digitsToNat cs).map (fun n => n + (c.toNat - 48) * 10 ^ cs.length)
      else none

/-- Parse a plain decimal string (optional sign, digits, optional fractional
part) to an exact rational, the format of XRPL issued-currency `value`
strings. Other `float()` input formats are not needed by the program's data
and are out of scope. -/
def parseDecimal (s : String) : Option Rat :=
  let signed : List Char := s.data
  let core : List Char :=
    match signed with
    | c :: rest => if c = '-' ∨ c = '+' then rest else signed
    | [] => []
  let intPart : List Char := core.takeWhile (fun c => c ≠ '.')
  let rest : List Char := core.dropWhile (fun c => c ≠ '.')
  let mag : Option Rat :=
    match rest with
    | [] => if intPart.isEmpty then none else (digitsToNat intPart).map (fun n => mkRat n 1)
    | _ :: frac =>
        if intPart.isEmpty ∧ frac.isEmpty then none
        else
          match digitsToNat intPart, digitsToNat frac with
          | some i, some f => some (mkRat (i * 10 ^ frac.length + f) (10 ^ frac.length))
          | _, _ => none
  match signed with
  | c :: _ => if c = '-' then mag.map Neg.neg else mag
  | [] => none

/-- Python `float(x)` on the values the program feeds it (numbers, booleans,
decimal strings); anything else raises. Floats are modelled as exact
rationals. -/
def pyFloat : JValue → Except Unit Rat
  | jnum q => .ok q
  | jbool b => .ok (if b then 1 else 0)
  | jstr s =>
      match parseDecimal s with
      | some q => .ok q
      | none => .error ()
  | _ => .error ()

/-- The in-memory balance ledger: a Python dict address → signed amount, as
an insertion-ordered association list. -/
abbrev Balances : Type := List (JValue × Rat)

/-- Python `balances[k] = v`: overwrite in place if present, else append. -/
def dictSet : Balances → JValue → Rat → Balances
  | [], k, v => [(k, v)]
  | (k2, v2) :: rest, k, v =>
      if k2 = k then (k, v) :: rest else (k2, v2) :: dictSet rest k v

/-- Key lookup in the balance dict (first match, comparing keys for
equality, as a Python dict does). -/
def lookupB : Balances → JValue → Option Rat
  | [], _ => none
  | (k2, v) :: rest, k => if k2 = k then some v else lookupB rest k

/-- Python `balances.get(k, 0)`: absent entries default to zero. -/
def getB (b : Balances) (k : JValue) : Rat :=
  (lookupB b k).getD 0

/-- Python `set.add`: duplicate-free insertion-ordered list. -/
def pySetAdd (s : List JValue) (x : JValue) : List JValue :=
  if x ∈ s then s else s ++ [x]

/-- Python `set.update`: add every element of `t`. -/
def pySetUnion (s t : List JValue) : List JValue :=
  t.foldl pySetAdd s

/-- The rows `save_balances_to_csv` writes (source lines 193-196): one row
per nonzero balance. -/
def nonzeroRows (b : Balances) : Balances :=
  b.filter (fun p => p.2 ≠ 0)

/-- Circulating supply as computed in `main` line 308:
`sum(balance for balance in balances.values() if balance > 0)`. -/
def circSupply (b : Balances) : Rat :=
  ((b.map Prod.snd).filter (fun q => 0 < q)).sum

/-- `load_checkpoint` (source lines 60-64): the checkpoint file's integer if
the file exists, else day 0. -/
def load_checkpoint (file : Option Nat) : Nat :=
  match file with
  | some n => n
  | none => 0

/-- `get_ledger_range_for_day` (source lines 73-76). -/
def get_ledger_range_for_day (day_number : Nat) : Nat × Nat :=
  let ledger_min := START_LEDGER + day_number * LEDGERS_PER_DAY
  let ledger_max := ledger_min + LEDGERS_PER_DAY
  (ledger_min, ledger_max)

/-- `is_pft_payment` (source lines 162-172). `Except.error ()` models the
`AttributeError` Python raises when `tx` or `tx.get("tx", ...)` is not a
dict. -/
def is_pft_payment (tx : JValue) : Except Unit Bool := do
  let tx_data ← pyGet tx "tx" (jobj [])
  let tt ← pyGet tx_data "TransactionType" jnull
  if tt ≠ jstr "Payment" then
    pure false
  else do
    let amount ← pyGet tx_data "Amount" jnull
    match amount with
    | jobj _ => do
        let c ← pyGet amount "currency" jnull
        let i ← pyGet amount "issuer" jnull
        pure (decide (c = jstr PFT_CURRENCY_CODE) && decide (i = jstr ISSUER_ADDRESS))
    | _ => pure false

/-- Shape condition under which `is_pft_payment` cannot raise: the record is
a dict and its `"tx"` member, when present, is a dict. -/
def recordShapeOk : JValue → Bool
  | jobj fs =>
      match List.lookup "tx" fs with
      | some (jobj _) => true
      | some _ => false
      | none => true
  | _ => false

/-- Spec-side qualification predicate, written from the claim's words (a
second definition, for comparison with `is_pft_payment`): type is Payment,
the amount is a structured issued-currency object, and its currency code and
issuer equal the tracked constants. -/
def isQualifyingSpec (tx : JValue) : Bool :=
  match objLookup tx "tx" with
  | some txd =>
      decide (objLookup txd "TransactionType" = some (jstr "Payment")) &&
      (match objLookup txd "Amount" with
       | some (jobj afs) =>
           decide (List.lookup "currency" afs = some (jstr PFT_CURRENCY_CODE)) &&
           decide (List.lookup "issuer" afs = some (jstr ISSUER_ADDRESS))
       | _ => false)
  | none => false

example : is_pft_payment (jobj [("tx", jobj [("TransactionType", jstr "Payment"),
  ("Amount", jobj [("currency", jstr "PFT"), ("issuer", jstr ISSUER_ADDRESS), ("value", jstr "10")])])]) = .ok true := by decide

example : is_pft_payment (jobj [("tx", jstr "oops")]) = .error () := by decide

example : is_pft_payment (jobj []) = .ok false := by decide

example : pyFloat (jstr "-12.25") = .ok (mkRat (-49) 4) := by decide

theorem ebind_ok {α β : Type} (a : α) (f : α → Except Unit β) :
    (Except.ok a >>= f) = f a := rfl

theorem ebind_err {α β : Type} (e : Unit) (f : α → Except Unit β) :
    ((Except.error e : Except Unit α) >>= f) = .error e := rfl

theorem epure_def {α : Type} (a : α) : (pure a : Except Unit α) = .ok a := rfl

theorem emap_ok {α β : Type} (f : α → β) (a : α) :
    (f <$> (Except.ok a : Except Unit α)) = .ok (f a) := rfl

theorem emap_err {α β : Type} (f : α → β) (e : Unit) :
    (f <$> (Except.error e : Except Unit α)) = .error e := rfl

/-- `update_balances` (source lines 179-189): extract the float amount,
sender and receiver from the raw record, mark both as active, then
decrement the sender's and increment the receiver's running balance,
absent entries defaulting to zero. -/
def update_balances (balances : Balances) (tx : JValue) (active_addresses : List JValue) :
    Except Unit (Balances × List JValue) := do
  let tx_data ← getItem tx "tx"
  let amount_data ← getItem tx_data "Amount"
  let amount ← pyFloat (← getItem amount_data "value")
  let sender ← getItem tx_data "Account"
  let receiver ← getItem tx_data "Destination"
  let act := pySetAdd (pySetAdd active_addresses sender) receiver
  let b1 := dictSet balances sender (getB balances sender - amount)
  let b2 := dictSet b1 receiver (getB b1 receiver + amount)
  pure (b2, act)

/-- The pure balance step `update_balances` performs once the record's fields
are extracted. -/
def applyTransfer (b : Balances) (sender receiver : JValue) (amount : Rat) : Balances :=
  let b1 := dictSet b sender (getB b sender - amount)
  dictSet b1 receiver (getB b1 receiver + amount)

/-- A well-formed qualifying raw record, as the XRPL node returns it: a
Payment of the tracked issued currency with the given hash, sender, receiver
and amount. -/
def mkPayTx (txHash : String) (sender receiver : JValue) (amount : Rat) : JValue :=
  jobj [("tx", jobj [
    ("TransactionType", jstr "Payment"),
    ("Amount", jobj [("currency", jstr PFT_CURRENCY_CODE),
                     ("issuer", jstr ISSUER_ADDRESS),
                     ("value", jnum amount)]),
    ("Account", sender),
    ("Destination", receiver),
    ("hash", jstr txHash),
    ("ledger_index", jnum 0),
    ("date", jstr "")])]

theorem update_balances_mkPayTx (b : Balances) (h : String) (s r : JValue) (a : Rat)
    (act : List JValue) :
    update_balances b (mkPayTx h s r a) act
      = .ok (applyTransfer b s r a, pySetAdd (pySetAdd act s) r) := rfl

theorem getB_dictSet_self (b : Balances) (k : JValue) (v : Rat) :
    getB (dictSet b k v) k = v := by
  induction b with
  | nil => simp [dictSet, getB, lookupB]
  | cons p rest ih =>
      obtain ⟨k2, v2⟩ := p
      by_cases hk : k2 = k
      · subst hk; simp [dictSet, getB, lookupB]
      · simp [dictSet, hk, getB, lookupB] at ih ⊢
        exact ih

theorem getB_dictSet_other (b : Balances) (k k2 : JValue) (v : Rat) (h : k2 ≠ k) :
    getB (dictSet b k v) k2 = getB b k2 := by
  induction b with
  | nil => simp [dictSet, getB, lookupB, Ne.symm h]
  | cons p rest ih =>
      obtain ⟨k3, v3⟩ := p
      by_cases hk : k3 = k
      · subst hk
        simp only [dictSet, if_pos rfl, getB, lookupB, if_neg (Ne.symm h)]
      · by_cases hk2 : k3 = k2
        · subst hk2; simp [dictSet, hk, getB, lookupB]
        · simp [dictSet, hk, getB, lookupB, hk2] at ih ⊢
          exact ih

theorem getB_applyTransfer_sender (b : Balances) (s r : JValue) (a : Rat) (h : s ≠ r) :
    getB (applyTransfer b s r a) s = getB b s - a := by
  unfold applyTransfer
  rw [getB_dictSet_other _ _ _ _ h, getB_dictSet_self]

theorem getB_applyTransfer_receiver (b : Balances) (s r : JValue) (a : Rat) (h : s ≠ r) :
    getB (applyTransfer b s r a) r = getB b r + a := by
  unfold applyTransfer
  rw [getB_dictSet_self, getB_dictSet_other _ _ _ _ (Ne.symm h)]

theorem getD_jnull_eq_jstr (o : Option JValue) (s : String) :
    (o.getD jnull = jstr s) ↔ o = some (jstr s) := by
  cases o <;> simp

/-- On a well-shaped record the filter returns, without raising, exactly the
spec-side qualification verdict. -/
theorem ispp_of_shape (tx : JValue) (h : recordShapeOk tx = true) :
    is_pft_payment tx = .ok (isQualifyingSpec tx) := by
  cases tx with
  | jobj fs =>
      cases htx : List.lookup "tx" fs with
      | none =>
          simp [is_pft_payment, pyGet, htx, ebind_ok, isQualifyingSpec, objLookup, epure_def]
      | some v =>
          cases v with
          | jobj tfs =>
              cases htt : List.lookup "TransactionType" tfs with
              | none =>
                  simp [is_pft_payment, pyGet, htx, htt, ebind_ok, epure_def,
                    isQualifyingSpec, objLookup]
              | some tv =>
                  by_cases hpay : tv = jstr "Payment"
                  · subst hpay
                    cases ha : List.lookup "Amount" tfs with
                    | none =>
                        simp [is_pft_payment, pyGet, htx, htt, ha, ebind_ok, epure_def,
                          isQualifyingSpec, objLookup]
                    | some a =>
                        cases a <;>
                          simp [is_pft_payment, pyGet, htx, htt, ha, ebind_ok, epure_def,
                            isQualifyingSpec, objLookup, getD_jnull_eq_jstr]
                  · simp [is_pft_payment, pyGet, htx, htt, ebind_ok, epure_def,
                      isQualifyingSpec, objLookup, hpay]
          | jnull => simp [recordShapeOk, htx] at h
          | jbool b => simp [recordShapeOk, htx] at h
          | jnum q => simp [recordShapeOk, htx] at h
          | jstr s2 => simp [recordShapeOk, htx] at h
          | jarr xs => simp [recordShapeOk, htx] at h
  | jnull => simp [recordShapeOk] at h
  | jbool b => simp [recordShapeOk] at h
  | jnum q => simp [recordShapeOk] at h
  | jstr s2 => simp [recordShapeOk] at h
  | jarr xs => simp [recordShapeOk] at h

/-- On an ill-shaped record the filter raises (the Python `AttributeError`). -/
theorem ispp_err_of_shape (tx : JValue) (h : recordShapeOk tx = false) :
    is_pft_payment tx = .error () := by
  cases tx with
  | jobj fs =>
      cases htx : List.lookup "tx" fs with
      | none => simp [recordShapeOk, htx] at h
      | some v =>
          cases v with
          | jobj tfs => simp [recordShapeOk, htx] at h
          | jnull => simp [is_pft_payment, pyGet, htx, ebind_ok, ebind_err]
          | jbool b => simp [is_pft_payment, pyGet, htx, ebind_ok, ebind_err]
          | jnum q => simp [is_pft_payment, pyGet, htx, ebind_ok, ebind_err]
          | jstr s2 => simp [is_pft_payment, pyGet, htx, ebind_ok, ebind_err]
          | jarr xs => simp [is_pft_payment, pyGet, htx, ebind_ok, ebind_err]
  | jnull => simp [is_pft_payment, pyGet, ebind_err]
  | jbool b => simp [is_pft_payment, pyGet, ebind_err]
  | jnum q => simp [is_pft_payment, pyGet, ebind_err]
  | jstr s2 => simp [is_pft_payment, pyGet, ebind_err]
  | jarr xs => simp [is_pft_payment, pyGet, ebind_err]

/-- An ill-shaped record is not spec-qualifying either. -/
theorem spec_false_of_shape (tx : JValue) (h : recordShapeOk tx = false) :
    isQualifyingSpec tx = false := by
  cases tx with
  | jobj fs =>
      cases htx : List.lookup "tx" fs with
      | none => simp [recordShapeOk, htx] at h
      | some v =>
          cases v with
          | jobj tfs => simp [recordShapeOk, htx] at h
          | jnull => simp [isQualifyingSpec, objLookup, htx]
          | jbool b => simp [isQualifyingSpec, objLookup, htx]
          | jnum q => simp [isQualifyingSpec, objLookup, htx]
          | jstr s2 => simp [isQualifyingSpec, objLookup, htx]
          | jarr xs => simp [isQualifyingSpec, objLookup, htx]
  | jnull => simp [isQualifyingSpec, objLookup]
  | jbool b => simp [isQualifyingSpec, objLookup]
  | jnum q => simp [isQualifyingSpec, objLookup]
  | jstr s2 => simp [isQualifyingSpec, objLookup]
  | jarr xs => simp [isQualifyingSpec, objLookup]

/-- An HTTP response from the XRPL node: status code and JSON body. -/
structure HttpResp where
  status : Nat
  body : JValue
  deriving DecidableEq

/-- `safe_post` (source lines 85-117): the parsed body on HTTP 200, `None`
otherwise (the failure is printed and swallowed). The append-only response
log and its rotation counters (lines 100-111) are diagnostic only and have
no functional effect, so they are not modelled. -/
def safe_post (resp : HttpResp) : Option JValue :=
  if resp.status = 200 then some resp.body else none

/-- Python `all_transactions.extend(x)` on the shapes the node returns:
extending by a list; anything non-iterable raises. -/
def asList : JValue → Except Unit (List JValue)
  | jarr xs => .ok xs
  | _ => .error ()

/-- The remote node as an oracle: the scripted responses the node gives to
the successive `account_tx` posts of one
`fetch_account_transactions(address, ledger_min, ledger_max)` call
(arguments: ledger_min, ledger_max, address). An exhausted script behaves
like a failed request. -/
abbrev Server : Type := Nat → Nat → JValue → List HttpResp

/-- The pagination loop of `fetch_account_transactions` (source lines
125-158): post, stop silently on failure keeping what was accumulated,
extend by the page's transactions, follow `marker` until it is falsy. -/
def fetchGo : List HttpResp → List JValue → Except Unit (List JValue)
  | [], acc => .ok acc
  | resp :: rest, acc =>
      match safe_post resp with
      | none => .ok acc
      | some data => do
          let result ← pyGet data "result" (jobj [])
          let transactions ← pyGet result "transactions" (jarr [])
          let txs ← asList transactions
          let acc2 := acc ++ txs
          let marker ← pyGet result "marker" jnull
          if pyFalsy marker then .ok acc2 else fetchGo rest acc2

/-- `fetch_account_transactions` (source lines 121-158). -/
def fetch_account_transactions (server : Server) (address : JValue)
    (ledger_min ledger_max : Nat) : Except Unit (List JValue) :=
  fetchGo (server ledger_min ledger_max address) []

/-- A successful `account_tx` page: HTTP 200 carrying the given transaction
list and continuation marker. -/
def mkPageResp (p : List JValue × JValue) : HttpResp :=
  ⟨200, jobj [("result", jobj [("transactions", jarr p.1), ("marker", p.2)])]⟩

theorem fetchGo_page_step (p : List JValue × JValue) (rest : List HttpResp)
    (acc : List JValue) :
    fetchGo (mkPageResp p :: rest) acc
      = if pyFalsy p.2 then .ok (acc ++ p.1) else fetchGo rest (acc ++ p.1) := rfl

theorem fetchGo_pages (pages : List (List JValue × JValue)) (s : Nat) (body : JValue)
    (rest : List HttpResp) (acc : List JValue) (hs : s ≠ 200)
    (hm : ∀ p ∈ pages, pyFalsy p.2 = false) :
    fetchGo (pages.map mkPageResp ++ ⟨s, body⟩ :: rest) acc
      = .ok (acc ++ (pages.map Prod.fst).flatten) := by
  induction pages generalizing acc with
  | nil => simp [fetchGo, safe_post, hs]
  | cons p ps ih =>
      have hp : pyFalsy p.2 = false := hm p (List.mem_cons_self p ps)
      have hps : ∀ q ∈ ps, pyFalsy q.2 = false := fun q hq => hm q (List.mem_cons_of_mem p hq)
      simp only [List.map_cons, List.cons_append, fetchGo_page_step, hp,
        Bool.false_eq_true, if_false, ih _ hps]
      simp [List.append_assoc]

/-- Externally visible database / checkpoint effects of one run, in program
order: the `INSERT ... ON CONFLICT (tx_hash) DO NOTHING` issued by
`insert_transfer` (with the row's key fields), each checkpoint overwrite by
`save_checkpoint`, and each `conn.commit()`. -/
inductive Event where
  | dbInsert (txHash : JValue) (day : Nat) (sender receiver : JValue) (amount : Rat)
  | checkpointWrite (n : Nat)
  | commit
  deriving DecidableEq

def isInsert : Event → Bool
  | .dbInsert _ _ _ _ _ => true
  | _ => false

/-- One observed transfer: the fields `update_balances` applies. -/
structure TRec where
  sender : JValue
  receiver : JValue
  amount : Rat
  deriving DecidableEq

/-- The transfers recorded in a trace, in order. -/
def transfersOfTrace : List Event → List TRec
  | [] => []
  | .dbInsert _ _ s r a :: rest => ⟨s, r, a⟩ :: transfersOfTrace rest
  | .checkpointWrite _ :: rest => transfersOfTrace rest
  | .commit :: rest => transfersOfTrace rest

/-- Fold a transfer list over a balance map, the single balance step being
`applyTransfer`. -/
def applyTransfers (b : Balances) (ts : List TRec) : Balances :=
  ts.foldl (fun bb t => applyTransfer bb t.sender t.receiver t.amount) b

/-- The loop-local state of one day's scan: the running balances, the day's
`active_addresses` set (reset at line 266), the day's transfer counter, the
buffered `new_addresses`, and the event trace so far. -/
structure InnerAcc where
  balances : Balances
  active : List JValue
  count : Nat
  newAddrs : List JValue
  trace : List Event
  deriving DecidableEq

/-- Lines 295-298 of the source: buffer the tx's sender and receiver into
`new_addresses` when they are not in the (day-constant) watchlist. -/
def addNewAddrs (w na : List JValue) (sender receiver : JValue) : List JValue :=
  let na2 := if sender ∈ w then na else pySetAdd na sender
  if receiver ∈ w then na2 else pySetAdd na2 receiver

/-- The per-transaction body of `main`'s inner loop (source lines 283-298):
filter, read the hash, issue the idempotent insert (`insert_transfer`,
lines 204-232, whose field reads happen before its SQL and raise on a
malformed record), apply `update_balances`, bump the day's counter, and
buffer unseen counterparties. A raised exception aborts the run
(`Except.error`). -/
def processTx (w : List JValue) (day : Nat) (acc : InnerAcc) (tx : JValue) :
    Except Unit InnerAcc := do
  let q ← is_pft_payment tx
  if q then do
    let txd ← getItem tx "tx"
    let txHash ← getItem txd "hash"
    let amount_data ← getItem txd "Amount"
    let amount ← pyFloat (← getItem amount_data "value")
    let sender ← getItem txd "Account"
    let receiver ← getItem txd "Destination"
    let _ligr ← getItem txd "ledger_index"
    let trace2 := acc.trace ++ [Event.dbInsert txHash day sender receiver amount]
    let (b2, act2) ← update_balances acc.balances tx acc.active
    pure ⟨b2, act2, acc.count + 1, addNewAddrs w acc.newAddrs sender receiver, trace2⟩
  else
    pure acc

/-- What one day's iteration of `main` leaves observable: the day number,
the snapshot of addresses queried (`day_addresses`, line 276), the
addresses buffered as new during the day, the watchlist after the line-301
merge, the day's transfer count, the day's active-address count, and the
rows and circulating supply written for the day (lines 305-309). -/
structure DayResult where
  day : Nat
  queried : List JValue
  discovered : List JValue
  wlAfter : List JValue
  transferCount : Nat
  activeCount : Nat
  balancesRows : Balances
  supply : Rat
  deriving DecidableEq

/-- The scan's cross-day state: the running balances and watchlist, the
event trace so far and the per-day reports. -/
structure RunState where
  balances : Balances
  watchlist : List JValue
  trace : List Event
  reports : List DayResult
  deriving DecidableEq

/-- The two nested `for` loops of one day (source lines 278-298): for every
address of the day's watchlist snapshot `w`, fetch its transactions over the
day's ledger window and process each one. -/
def dayFold (server : Server) (day : Nat) (w : List JValue) (acc0 : InnerAcc) :
    Except Unit InnerAcc :=
  let rng := get_ledger_range_for_day day
  w.foldlM (fun a address => do
      let txs ← fetch_account_transactions server address rng.1 rng.2
      txs.foldlM (processTx w day) a) acc0

/-- One day of the scan (source lines 265-311): snapshot the watchlist,
query every snapshotted address over the day's ledger window, process every
returned record, then merge the buffered addresses into the watchlist,
compute the day's report rows, and write the checkpoint `day + 1`. -/
def processDay (server : Server) (day : Nat) (st : RunState) : Except Unit RunState := do
  let acc ← dayFold server day st.watchlist ⟨st.balances, [], 0, [], st.trace⟩
  let wl2 := pySetUnion st.watchlist acc.newAddrs
  let rep : DayResult := ⟨day, st.watchlist, acc.newAddrs, wl2, acc.count,
    acc.active.length, nonzeroRows acc.balances, circSupply acc.balances⟩
  pure ⟨acc.balances, wl2, acc.trace ++ [Event.checkpointWrite (day + 1)],
    st.reports ++ [rep]⟩

/-- `for day_offset in range(number_of_days)` (source line 265), processing
days `day, day+1, ...`. -/
def runDays (server : Server) : Nat → Nat → RunState → Except Unit RunState
  | _, 0, st => .ok st
  | day, n + 1, st => do
      let st2 ← processDay server day st
      runDays server (day + 1) n st2

/-- The state `main` starts its scan from: empty balances (line 244), the
watchlist holding only the issuer (line 57), and the trace holding the one
commit `create_table_if_not_exists` already issued (line 39). -/
def mainInitState : RunState :=
  ⟨[], [jstr ISSUER_ADDRESS], [Event.commit], []⟩

/-- `main` (source lines 238-322): load the checkpoint, scan the configured
number of days from it, and issue the final `conn.commit()` (line 321).
`main` takes no database content as input: nothing in it reads the
`pft_transfers` table back. -/
def main_run (server : Server) (checkpoint_file : Option Nat) (number_of_days : Nat) :
    Except Unit RunState := do
  let start_day := load_checkpoint checkpoint_file
  let st ← runDays server start_day number_of_days mainInitState
  pure { st with trace := st.trace ++ [Event.commit] }

def reportsOf : Except Unit RunState → List DayResult
  | .ok r => r.reports
  | .error _ => []

def traceOf : Except Unit RunState → List Event
  | .ok r => r.trace
  | .error _ => []

def balancesOf : Except Unit RunState → Balances
  | .ok r => r.balances
  | .error _ => []

def isOkRun : Except Unit RunState → Bool
  | .ok _ => true
  | .error _ => false

/-- The addresses queried during the run's `i`-th processed day (the day's
`day_addresses` snapshot). -/
def queriedAt (e : Except Unit RunState) (i : Nat) : List JValue :=
  (((reportsOf e).get? i).map DayResult.queried).getD []

/-- The addresses first discovered (buffered in `new_addresses`) during the
run's `i`-th processed day. -/
def discoveredAt (e : Except Unit RunState) (i : Nat) : List JValue :=
  (((reportsOf e).get? i).map DayResult.discovered).getD []

/-- The watchlist right after the run's `i`-th processed day's merge. -/
def wlAfterAt (e : Except Unit RunState) (i : Nat) : List JValue :=
  (((reportsOf e).get? i).map DayResult.wlAfter).getD []

/-- The day number of the run's `i`-th processed day. -/
def dayAt (e : Except Unit RunState) (i : Nat) : Option Nat :=
  ((reportsOf e).get? i).map DayResult.day

theorem mem_pySetAdd (l : List JValue) (y x : JValue) :
    x ∈ pySetAdd l y ↔ x ∈ l ∨ x = y := by
  unfold pySetAdd
  by_cases hy : y ∈ l
  · simp only [if_pos hy]
    constructor
    · exact Or.inl
    · rintro (hx | rfl)
      · exact hx
      · exact hy
  · simp [if_neg hy, List.mem_append]

theorem mem_pySetUnion (s t : List JValue) (x : JValue) :
    x ∈ pySetUnion s t ↔ x ∈ s ∨ x ∈ t := by
  induction t generalizing s with
  | nil => simp [pySetUnion]
  | cons y ys ih =>
      unfold pySetUnion at ih ⊢
      rw [List.foldl_cons, ih, mem_pySetAdd, List.mem_cons]
      tauto

theorem mem_addNewAddrs (w na : List JValue) (s r x : JValue)
    (h : x ∈ addNewAddrs w na s r) : x ∈ na ∨ x ∉ w := by
  unfold addNewAddrs at h
  by_cases hs : s ∈ w <;> by_cases hr : r ∈ w <;>
    simp only [hs, hr, if_true, if_false, mem_pySetAdd] at h
  · exact Or.inl h
  · rcases h with h | rfl
    · exact Or.inl h
    · exact Or.inr hr
  · rcases h with h | rfl
    · exact Or.inl h
    · exact Or.inr hs
  · rcases h with (h | rfl) | rfl
    · exact Or.inl h
    · exact Or.inr hs
    · exact Or.inr hr

theorem transfersOfTrace_append (l1 l2 : List Event) :
    transfersOfTrace (l1 ++ l2) = transfersOfTrace l1 ++ transfersOfTrace l2 := by
  induction l1 with
  | nil => rfl
  | cons e rest ih => cases e <;> simp [transfersOfTrace, ih]

theorem applyTransfers_append (b : Balances) (l1 l2 : List TRec) :
    applyTransfers b (l1 ++ l2) = applyTransfers (applyTransfers b l1) l2 := by
  unfold applyTransfers
  rw [List.foldl_append]

theorem processTx_spec (w : List JValue) (day : Nat) (acc : InnerAcc) (tx : JValue)
    (acc2 : InnerAcc) (h : processTx w day acc tx = .ok acc2) :
    acc2 = acc ∨
    ∃ hsh s r a, acc2.trace = acc.trace ++ [Event.dbInsert hsh day s r a] ∧
      acc2.balances = applyTransfer acc.balances s r a ∧
      acc2.newAddrs = addNewAddrs w acc.newAddrs s r := by
  cases hq : is_pft_payment tx with
  | error e => simp [processTx, hq, ebind_err] at h
  | ok q =>
      cases q with
      | false =>
          simp only [processTx, hq, ebind_ok, Bool.false_eq_true, if_false, epure_def] at h
          cases h
          exact Or.inl rfl
      | true =>
          simp only [processTx, hq, ebind_ok, if_true] at h
          cases htxd : getItem tx "tx" with
          | error e => simp [htxd, ebind_err] at h
          | ok txd =>
          rw [htxd, ebind_ok] at h
          cases hhash : getItem txd "hash" with
          | error e => simp [hhash, ebind_err] at h
          | ok hsh =>
          rw [hhash, ebind_ok] at h
          cases ham : getItem txd "Amount" with
          | error e => simp [ham, ebind_err] at h
          | ok amount_data =>
          rw [ham, ebind_ok] at h
          cases hval : getItem amount_data "value" with
          | error e => simp [hval, ebind_err] at h
          | ok v =>
          rw [hval, ebind_ok] at h
          cases hfl : pyFloat v with
          | error e => simp [hfl, ebind_err] at h
          | ok a =>
          rw [hfl, ebind_ok] at h
          cases hs : getItem txd "Account" with
          | error e => simp [hs, ebind_err] at h
          | ok s =>
          rw [hs, ebind_ok] at h
          cases hr : getItem txd "Destination" with
          | error e => simp [hr, ebind_err] at h
          | ok r =>
          rw [hr, ebind_ok] at h
          cases hli : getItem txd "ledger_index" with
          | error e => simp [hli, ebind_err] at h
          | ok li =>
          rw [hli, ebind_ok] at h
          have hub : update_balances acc.balances tx acc.active
              = .ok (applyTransfer acc.balances s r a, pySetAdd (pySetAdd acc.active s) r) := by
            simp only [update_balances, htxd, ebind_ok, ham, hval, hfl, hs, hr, epure_def,
              applyTransfer]
          rw [hub, ebind_ok] at h
          simp only [epure_def] at h
          cases h
          refine Or.inr ⟨hsh, s, r, a, rfl, rfl, rfl⟩

/-- What one day's inner loop can do to the loop-local state: it only adds
addresses outside the day's watchlist to `new_addresses`, and it only
appends insert events to the trace, applying exactly those transfers to the
balances. -/
def InnerReach (w : List JValue) (acc acc2 : InnerAcc) : Prop :=
  (∀ x, x ∈ acc2.newAddrs → x ∈ acc.newAddrs ∨ x ∉ w) ∧
  ∃ d, acc2.trace = acc.trace ++ d ∧ (∀ e ∈ d, isInsert e = true) ∧
    acc2.balances = applyTransfers acc.balances (transfersOfTrace d)

theorem innerReach_refl (w : List JValue) (acc : InnerAcc) : InnerReach w acc acc := by
  refine ⟨fun _ hx => Or.inl hx, [], by simp, by simp, rfl⟩

theorem innerReach_trans (w : List JValue) (a b c : InnerAcc)
    (h1 : InnerReach w a b) (h2 : InnerReach w b c) : InnerReach w a c := by
  obtain ⟨hn1, d1, ht1, hi1, hb1⟩ := h1
  obtain ⟨hn2, d2, ht2, hi2, hb2⟩ := h2
  refine ⟨fun x hx => ?_, d1 ++ d2, ?_, ?_, ?_⟩
  · rcases hn2 x hx with hx2 | hw
    · exact hn1 x hx2
    · exact Or.inr hw
  · rw [ht2, ht1, List.append_assoc]
  · intro e he
    rcases List.mem_append.mp he with he1 | he2
    · exact hi1 e he1
    · exact hi2 e he2
  · rw [hb2, hb1, transfersOfTrace_append, applyTransfers_append]

theorem processTx_reach (w : List JValue) (day : Nat) (acc : InnerAcc) (tx : JValue)
    (acc2 : InnerAcc) (h : processTx w day acc tx = .ok acc2) : InnerReach w acc acc2 := by
  rcases processTx_spec w day acc tx acc2 h with rfl | ⟨hsh, s, r, a, ht, hb, hn⟩
  · exact innerReach_refl w _
  · refine ⟨fun x hx => ?_, [Event.dbInsert hsh day s r a], ht, ?_, ?_⟩
    · rw [hn] at hx
      exact mem_addNewAddrs w acc.newAddrs s r x hx
    · intro e he
      rcases List.mem_singleton.mp he with rfl
      rfl
    · rw [hb]
      rfl

theorem foldlM_reach {α : Type} (w : List JValue)
    (f : InnerAcc → α → Except Unit InnerAcc)
    (hf : ∀ a x b, f a x = .ok b → InnerReach w a b) :
    ∀ (l : List α) (a b : InnerAcc), List.foldlM f a l = .ok b → InnerReach w a b := by
  intro l
  induction l with
  | nil =>
      intro a b h
      simp only [List.foldlM_nil, epure_def] at h
      cases h
      exact innerReach_refl w a
  | cons x xs ih =>
      intro a b h
      rw [List.foldlM_cons] at h
      cases hfa : f a x with
      | error e => rw [hfa, ebind_err] at h; exact absurd h (by simp)
      | ok a2 =>
          rw [hfa, ebind_ok] at h
          exact innerReach_trans w a a2 b (hf a x a2 hfa) (ih a2 b h)

theorem addressFold_reach (server : Server) (day : Nat) (w : List JValue)
    (mn mx : Nat) (a : InnerAcc) (address : JValue) (b : InnerAcc)
    (h : (do
        let txs ← fetch_account_transactions server address mn mx
        txs.foldlM (processTx w day) a) = .ok b) : InnerReach w a b := by
  cases hf : fetch_account_transactions server address mn mx with
  | error e => rw [hf, ebind_err] at h; exact absurd h (by simp)
  | ok txs =>
      rw [hf, ebind_ok] at h
      exact foldlM_reach w (processTx w day) (processTx_reach w day) txs a b h

theorem isInsert_ne_commit (e : Event) (h : isInsert e = true) : e ≠ Event.commit := by
  cases e <;> simp_all [isInsert]

theorem isInsert_ne_checkpoint (e : Event) (h : isInsert e = true) (n : Nat) :
    e ≠ Event.checkpointWrite n := by
  cases e <;> simp_all [isInsert]

theorem dayFold_reach (server : Server) (day : Nat) (w : List JValue)
    (acc0 acc : InnerAcc) (h : dayFold server day w acc0 = .ok acc) :
    InnerReach w acc0 acc := by
  unfold dayFold at h
  exact foldlM_reach w _
    (fun a addr b hb => addressFold_reach server day w
      (get_ledger_range_for_day day).1 (get_ledger_range_for_day day).2 a addr b hb)
    w acc0 acc h

theorem processDay_spec (server : Server) (day : Nat) (st st2 : RunState)
    (h : processDay server day st = .ok st2) :
    ∃ rep d,
      st2.reports = st.reports ++ [rep] ∧
      rep.day = day ∧
      rep.queried = st.watchlist ∧
      rep.wlAfter = st2.watchlist ∧
      (∀ x ∈ rep.discovered, x ∉ st.watchlist) ∧
      (∀ x ∈ rep.discovered, x ∈ st2.watchlist) ∧
      (∀ x ∈ st.watchlist, x ∈ st2.watchlist) ∧
      st2.trace = st.trace ++ d ∧
      (∀ e ∈ d, e ≠ Event.commit) ∧
      Event.checkpointWrite (day + 1) ∈ d ∧
      st2.balances = applyTransfers st.balances (transfersOfTrace d) ∧
      rep.balancesRows = nonzeroRows st2.balances ∧
      rep.supply = circSupply st2.balances := by
  cases hacc : dayFold server day st.watchlist ⟨st.balances, [], 0, [], st.trace⟩ with
  | error e => simp [processDay, hacc, ebind_err] at h
  | ok acc =>
      obtain ⟨hnew, d0, htr, hins, hbal⟩ :=
        dayFold_reach server day st.watchlist _ acc hacc
      simp only [processDay, hacc, ebind_ok, epure_def] at h
      cases h
      refine ⟨_, d0 ++ [Event.checkpointWrite (day + 1)], rfl, rfl, rfl, rfl,
        ?_, ?_, ?_, ?_, ?_, ?_, ?_, rfl, rfl⟩
      · intro x hx
        rcases hnew x hx with hx0 | hw
        · exact absurd hx0 (List.not_mem_nil x)
        · exact hw
      · intro x hx
        exact (mem_pySetUnion st.watchlist acc.newAddrs x).mpr (Or.inr hx)
      · intro x hx
        exact (mem_pySetUnion st.watchlist acc.newAddrs x).mpr (Or.inl hx)
      · rw [htr, List.append_assoc]
      · intro e he
        rcases List.mem_append.mp he with he1 | he2
        · exact isInsert_ne_commit e (hins e he1)
        · rcases List.mem_singleton.mp he2 with rfl
          simp
      · exact List.mem_append.mpr (Or.inr (List.mem_singleton.mpr rfl))
      · rw [transfersOfTrace_append, applyTransfers_append, ← hbal]
        rfl

/-- The day-by-day watchlist chain a successful run's report list forms:
each day queried exactly the watchlist at its start, discovered only
addresses outside it, and handed a grown watchlist to the next day. -/
inductive WChain : List JValue → List DayResult → List JValue → Prop where
  | nil (w : List JValue) : WChain w [] w
  | cons {w w2 wEnd : List JValue} {rep : DayResult} {reps : List DayResult}
      (hq : rep.queried = w) (hwa : rep.wlAfter = w2)
      (hd1 : ∀ x ∈ rep.discovered, x ∉ w) (hd2 : ∀ x ∈ rep.discovered, x ∈ w2)
      (hmono : ∀ x ∈ w, x ∈ w2) (rest : WChain w2 reps wEnd) :
      WChain w (rep :: reps) wEnd

theorem wchain_mono {w : List JValue} {reps : List DayResult} {wEnd : List JValue}
    (hc : WChain w reps wEnd) (x : JValue) :
    x ∈ w → (∀ j rep, reps.get? j = some rep → x ∈ rep.queried) ∧ x ∈ wEnd := by
  induction hc with
  | nil w =>
      intro hx
      exact ⟨fun j rep hj => absurd hj (by simp), hx⟩
  | cons hq hwa hd1 hd2 hmono rest ih =>
      intro hx
      obtain ⟨ih1, ih2⟩ := ih (hmono x hx)
      refine ⟨?_, ih2⟩
      intro j rep2 hj
      cases j with
      | zero =>
          simp only [List.get?] at hj
          cases hj
          rw [hq]
          exact hx
      | succ j2 => exact ih1 j2 rep2 (by simpa using hj)

theorem wchain_c6 {w : List JValue} {reps : List DayResult} {wEnd : List JValue}
    (hc : WChain w reps wEnd) (x : JValue) :
    ∀ (i : Nat) (rep : DayResult), reps.get? i = some rep → x ∈ rep.discovered →
    x ∉ rep.queried ∧ x ∈ rep.wlAfter ∧ x ∈ wEnd ∧
    ∀ j rep2, i < j → reps.get? j = some rep2 → x ∈ rep2.queried := by
  induction hc with
  | nil w => intro i rep hi; simp at hi
  | @cons w0 w2 wEnd0 rep0 reps0 hq hwa hd1 hd2 hmono rest ih =>
      intro i rep2 hi hx
      cases i with
      | zero =>
          simp only [List.get?] at hi
          cases hi
          obtain ⟨hall, hend⟩ := wchain_mono rest x (hd2 x hx)
          refine ⟨by rw [hq]; exact hd1 x hx, by rw [hwa]; exact hd2 x hx, hend, ?_⟩
          intro j rep3 hij hj
          cases j with
          | zero => exact absurd hij (by omega)
          | succ j2 => exact hall j2 rep3 (by simpa using hj)
      | succ i2 =>
          have hi2 : reps0.get? i2 = some rep2 := by simpa using hi
          obtain ⟨h1, h2, h3, h4⟩ := ih i2 rep2 hi2 hx
          refine ⟨h1, h2, h3, ?_⟩
          intro j rep3 hij hj
          cases j with
          | zero => exact absurd hij (by omega)
          | succ j2 => exact h4 j2 rep3 (by omega) (by simpa using hj)

theorem runDays_chain (server : Server) : ∀ (n day : Nat) (st st2 : RunState),
    runDays server day n st = .ok st2 →
    ∃ creps, st2.reports = st.reports ++ creps ∧
      WChain st.watchlist creps st2.watchlist := by
  intro n
  induction n with
  | zero =>
      intro day st st2 h
      simp only [runDays] at h
      cases h
      exact ⟨[], by simp, WChain.nil _⟩
  | succ n ih =>
      intro day st st2 h
      simp only [runDays] at h
      cases hd : processDay server day st with
      | error e => rw [hd, ebind_err] at h; exact absurd h (by simp)
      | ok st1 =>
          rw [hd, ebind_ok] at h
          obtain ⟨rep, d, hrep, hday, hq, hwa, hd1, hd2, hmono, htr, hnc, hck, hbal,
            hrows, hsup⟩ := processDay_spec server day st st1 hd
          obtain ⟨creps, hrep2, hchain2⟩ := ih (day + 1) st1 st2 h
          refine ⟨rep :: creps, ?_, ?_⟩
          · rw [hrep2, hrep, List.append_assoc, List.singleton_append]
          · exact WChain.cons hq hwa hd1 hd2 hmono (hwa ▸ hchain2)

theorem runDays_days (server : Server) : ∀ (n day : Nat) (st st2 : RunState),
    runDays server day n st = .ok st2 →
    st2.reports.map DayResult.day
      = st.reports.map DayResult.day ++ (List.range n).map (day + ·) := by
  intro n
  induction n with
  | zero =>
      intro day st st2 h
      simp only [runDays] at h
      cases h
      simp
  | succ n ih =>
      intro day st st2 h
      simp only [runDays] at h
      cases hd : processDay server day st with
      | error e => rw [hd, ebind_err] at h; exact absurd h (by simp)
      | ok st1 =>
          rw [hd, ebind_ok] at h
          obtain ⟨rep, d, hrep, hday, hq, hwa, hd1, hd2, hmono, htr, hnc, hck, hbal,
            hrows, hsup⟩ := processDay_spec server day st st1 hd
          rw [ih (day + 1) st1 st2 h, hrep]
          have hfe : (fun x => day + 1 + x) = ((fun x => day + x) ∘ Nat.succ) := by
            funext k
            simp only [Function.comp_apply]
            omega
          simp [List.range_succ_eq_map, hday, hfe, List.map_map, List.append_assoc]

theorem runDays_trace_bal (server : Server) : ∀ (n day : Nat) (st st2 : RunState),
    runDays server day n st = .ok st2 →
    ∃ d, st2.trace = st.trace ++ d ∧ (∀ e ∈ d, e ≠ Event.commit) ∧
      (∀ k, k < n → Event.checkpointWrite (day + k + 1) ∈ d) ∧
      st2.balances = applyTransfers st.balances (transfersOfTrace d) := by
  intro n
  induction n with
  | zero =>
      intro day st st2 h
      simp only [runDays] at h
      cases h
      exact ⟨[], by simp, by simp, by omega, rfl⟩
  | succ n ih =>
      intro day st st2 h
      simp only [runDays] at h
      cases hd : processDay server day st with
      | error e => rw [hd, ebind_err] at h; exact absurd h (by simp)
      | ok st1 =>
          rw [hd, ebind_ok] at h
          obtain ⟨rep, d1, hrep, hday, hq, hwa, hdi1, hdi2, hmono, htr1, hnc1, hck1,
            hbal1, hrows, hsup⟩ := processDay_spec server day st st1 hd
          obtain ⟨d2, htr2, hnc2, hck2, hbal2⟩ := ih (day + 1) st1 st2 h
          refine ⟨d1 ++ d2, ?_, ?_, ?_, ?_⟩
          · rw [htr2, htr1, List.append_assoc]
          · intro e he
            rcases List.mem_append.mp he with he1 | he2
            · exact hnc1 e he1
            · exact hnc2 e he2
          · intro k hk
            cases k with
            | zero => exact List.mem_append.mpr (Or.inl hck1)
            | succ k2 =>
                have hmem := hck2 k2 (by omega)
                have heq : day + 1 + k2 + 1 = day + (k2 + 1) + 1 := by omega
                rw [heq] at hmem
                exact List.mem_append.mpr (Or.inr hmem)
          · rw [hbal2, hbal1, transfersOfTrace_append, applyTransfers_append]

theorem except_map_ok {α β : Type} (f : α → β) (a : α) :
    (Except.ok a : Except Unit α).map f = .ok (f a) := rfl

theorem isOkRun_iff (e : Except Unit RunState) : isOkRun e = true ↔ ∃ r, e = .ok r := by
  cases e <;> simp [isOkRun]

theorem main_run_ok (server : Server) (chk : Option Nat) (n : Nat) (r : RunState)
    (h : main_run server chk n = .ok r) :
    ∃ st, runDays server (load_checkpoint chk) n mainInitState = .ok st ∧
      r = { st with trace := st.trace ++ [Event.commit] } := by
  cases hrd : runDays server (load_checkpoint chk) n mainInitState with
  | error e => simp [main_run, hrd, ebind_err] at h
  | ok st =>
      simp only [main_run, hrd, ebind_ok, epure_def] at h
      cases h
      exact ⟨st, rfl, rfl⟩

theorem main_run_first_day (server : Server) (chk : Option Nat) (n : Nat)
    (hn : 0 < n) (hok : isOkRun (main_run server chk n) = true) :
    dayAt (main_run server chk n) 0 = some (load_checkpoint chk) := by
  obtain ⟨r, hr⟩ := (isOkRun_iff _).mp hok
  obtain ⟨st, hrd, hreq⟩ := main_run_ok server chk n r hr
  have hdays := runDays_days server n (load_checkpoint chk) mainInitState st hrd
  simp only [mainInitState, List.map_nil, List.nil_append] at hdays
  have h0 : (st.reports.map DayResult.day).get? 0
      = ((List.range n).map (load_checkpoint chk + ·)).get? 0 := by rw [hdays]
  rw [List.get?_map, List.get?_map, List.get?_range hn] at h0
  have hrep : r.reports = st.reports := by rw [hreq]
  unfold dayAt
  rw [hr]
  simp only [reportsOf, hrep]
  simpa using h0

/-- The scripted node used by the concrete run witnesses: one qualifying
payment (issuer to the fresh address rX) on the first window of the chain,
nothing anywhere else. -/
def txW : JValue := mkPayTx "H1" (jstr ISSUER_ADDRESS) (jstr "rX") 10

def pageW : HttpResp := ⟨200, jobj [("result", jobj [("transactions", jarr [txW])])]⟩

def serverW : Server := fun mn _mx addr =>
  if mn = START_LEDGER ∧ addr = jstr ISSUER_ADDRESS then [pageW] else []

/-- A node that answers nothing at all (every request fails over). -/
def serverE : Server := fun _ _ _ => []

/-- A qualifying payment A to B of 10, and B to A of 4 (the spec's Balance
Ledger scenario). -/
def txAB10 : JValue := mkPayTx "h1" (jstr "A") (jstr "B") 10

def txBA4 : JValue := mkPayTx "h2" (jstr "B") (jstr "A") 4

/-- The balance map after the filter-and-apply pipeline sees `txAB10` once. -/
def applyOnce : Except Unit Balances :=
  (update_balances [] txAB10 []).map Prod.fst

/-- The balance map after the pipeline sees the same raw record twice. -/
def applyTwice : Except Unit Balances := do
  let p1 ← update_balances [] txAB10 []
  let p2 ← update_balances p1.1 txAB10 []
  pure p2.1

/-- The spec's two-transfer scenario: A sends B 10, then B sends A 4. -/
def scenarioAB : Except Unit Balances := do
  let p1 ← update_balances [] txAB10 []
  let p2 ← update_balances p1.1 txBA4 []
  pure p2.1

/-- The events strictly between the table-creation commit and the final
commit: everything the scan itself does. -/
def middleTrace (e : Except Unit RunState) : List Event :=
  ((traceOf e).drop 1).dropLast

def commitCount (e : Except Unit RunState) : Nat :=
  (traceOf e).count Event.commit

/-- Claim C2: for every day number `d`, the ledger window for `d` has
`min = START_LEDGER + d * LEDGERS_PER_DAY` and `max = min + LEDGERS_PER_DAY`,
and day `d + 1`'s min equals day `d`'s max, so consecutive windows tile
exactly with no gaps or overlaps. -/
theorem claim_C2_window_tiling (d : Nat) :
    (get_ledger_range_for_day d).1 = START_LEDGER + d * LEDGERS_PER_DAY ∧
    (get_ledger_range_for_day d).2 = (get_ledger_range_for_day d).1 + LEDGERS_PER_DAY ∧
    (get_ledger_range_for_day (d + 1)).1 = (get_ledger_range_for_day d).2 := by
  refine ⟨rfl, rfl, ?_⟩
  unfold get_ledger_range_for_day
  ring

/-- Claim C3: the Payment Filter accepts a raw record exactly when the
record's transaction type is Payment, its Amount is a structured
issued-currency object (not a native-currency scalar), and that object's
currency code and issuer equal the tracked constants; failing any one of
the four conditions makes the record non-qualifying. -/
theorem claim_C3_filter_iff (tx : JValue) :
    is_pft_payment tx = .ok true ↔ isQualifyingSpec tx = true := by
  cases hs : recordShapeOk tx with
  | true => rw [ispp_of_shape tx hs]; simp
  | false => rw [ispp_err_of_shape tx hs, spec_false_of_shape tx hs]; simp

/-- Claim C8 (counterexample): on a record whose transaction body is a
string rather than an object, `is_pft_payment` raises (the Python
`AttributeError` from `"notadict".get`), contradicting the claim that the
filter returns a boolean without raising on every input record. -/
theorem claim_C8_cex_nonobject_body_raises :
    is_pft_payment (jobj [("tx", jstr "notadict")]) = .error () := by decide

/-- Claim C8 (amended): on every record that is an object whose `"tx"`
member, when present, is an object, the filter returns a boolean without
raising, and the boolean is exactly the spec-side qualification verdict,
so absent or malformed fields within that shape (missing type, missing or
string-typed Amount) are classified as not qualifying. -/
theorem claim_C8_amended_filter_total (tx : JValue) (h : recordShapeOk tx = true) :
    is_pft_payment tx = .ok (isQualifyingSpec tx) :=
  ispp_of_shape tx h

theorem claim_C8_witness :
    is_pft_payment (jobj [("tx", jobj [("Amount", jstr "5")])])
      = .ok (isQualifyingSpec (jobj [("tx", jobj [("Amount", jstr "5")])])) :=
  claim_C8_amended_filter_total (jobj [("tx", jobj [("Amount", jstr "5")])]) (by decide)

/-- Claim C4: applying a qualifying transfer decrements the sender's
balance and increments the receiver's balance by the amount, absent
entries defaulting to zero; from an empty map, A sends B 10 then B sends A 4
leaves A at -6 and B at 6 with circulating supply 6. -/
theorem claim_C4_balance_update (b : Balances) (s r : JValue) (a : Rat)
    (act : List JValue) (hsr : s ≠ r) :
    (update_balances b (mkPayTx "h" s r a) act).map (fun p => (getB p.1 s, getB p.1 r))
        = .ok (getB b s - a, getB b r + a) ∧
    scenarioAB.map (fun b2 => (getB b2 (jstr "A"), getB b2 (jstr "B"), circSupply b2))
        = .ok (-6, 6, 6) := by
  constructor
  · rw [update_balances_mkPayTx]
    rw [except_map_ok]
    rw [getB_applyTransfer_sender b s r a hsr, getB_applyTransfer_receiver b s r a hsr]
  · decide

theorem claim_C4_witness :
    ((update_balances [] (mkPayTx "h" (jstr "S") (jstr "R") 7) []).map
        (fun p => (getB p.1 (jstr "S"), getB p.1 (jstr "R")))
      = .ok (getB [] (jstr "S") - 7, getB [] (jstr "R") + 7)) ∧
    scenarioAB.map (fun b2 => (getB b2 (jstr "A"), getB b2 (jstr "B"), circSupply b2))
        = .ok (-6, 6, 6) :=
  claim_C4_balance_update [] (jstr "S") (jstr "R") 7 [] (by decide)

/-- Claim C1 (code evaluation): replaying the same raw qualifying record
through the filter-and-apply pipeline twice does change the Balance Ledger:
the second application moves the balances again (A ends at -20, not -10),
because `update_balances` has no tx-hash dedup in memory; only the
database upsert is keyed. -/
theorem claim_C1_replay_not_idempotent :
    applyTwice ≠ applyOnce ∧
    applyTwice = .ok [(jstr "A", -20), (jstr "B", 20)] ∧
    applyOnce = .ok [(jstr "A", -10), (jstr "B", 10)] := by
  refine ⟨by decide, by decide, by decide⟩

/-- Claim C5: a run started with a checkpoint file holding `d + 1` loads
start day `d + 1` and its first processed day is exactly `d + 1` (not `d`,
not `d + 2`); with no checkpoint file the start day is 0 and the first
processed day is day 0. -/
theorem claim_C5_checkpoint_resume (server : Server) (d n : Nat) (hn : 0 < n)
    (hok : isOkRun (main_run server (some (d + 1)) n) = true)
    (hok2 : isOkRun (main_run server none n) = true) :
    load_checkpoint (some (d + 1)) = d + 1 ∧
    dayAt (main_run server (some (d + 1)) n) 0 = some (d + 1) ∧
    load_checkpoint none = 0 ∧
    dayAt (main_run server none n) 0 = some 0 := by
  refine ⟨rfl, ?_, rfl, ?_⟩
  · exact main_run_first_day server (some (d + 1)) n hn hok
  · exact main_run_first_day server none n hn hok2

theorem claim_C5_witness :
    load_checkpoint (some 5) = 5 ∧
    dayAt (main_run serverE (some 5) 1) 0 = some 5 ∧
    load_checkpoint none = 0 ∧
    dayAt (main_run serverE none 1) 0 = some 0 :=
  claim_C5_checkpoint_resume serverE 4 1 (by decide) (by decide) (by decide)

/-- Claim C6: the addresses queried during a day are the watchlist snapshot
taken at that day's start; an address first observed as a counterparty
("discovered") on the run's day `i` is not queried that day, is merged
into the watchlist at that day's end, and is queried on every later
processed day `j`. -/
theorem claim_C6_watchlist_snapshot (server : Server) (chk : Option Nat)
    (n i j : Nat) (x : JValue)
    (hx : x ∈ discoveredAt (main_run server chk n) i)
    (hij : i < j) (hj : j < (reportsOf (main_run server chk n)).length) :
    x ∉ queriedAt (main_run server chk n) i ∧
    x ∈ wlAfterAt (main_run server chk n) i ∧
    x ∈ queriedAt (main_run server chk n) j := by
  cases he : main_run server chk n with
  | error e =>
      rw [he] at hx
      simp [discoveredAt, reportsOf] at hx
  | ok r =>
      rw [he] at hx hj
      obtain ⟨st, hrd, hreq⟩ := main_run_ok server chk n r he
      obtain ⟨creps, hcr, hchain⟩ := runDays_chain server n (load_checkpoint chk)
        mainInitState st hrd
      have hcr2 : r.reports = creps := by
        rw [hreq]
        simpa [mainInitState] using hcr
      simp only [discoveredAt, reportsOf, hcr2] at hx
      simp only [reportsOf, hcr2] at hj
      cases hgi : creps.get? i with
      | none => rw [hgi] at hx; simp at hx
      | some rep =>
          rw [hgi] at hx
          simp only [Option.map_some', Option.getD_some] at hx
          obtain ⟨h1, h2, h3, h4⟩ := wchain_c6 hchain x i rep hgi hx
          have hj2 : ∃ rep2, creps.get? j = some rep2 := by
            rw [List.get?_eq_getElem?]
            exact ⟨creps.get ⟨j, hj⟩, List.getElem?_eq_some_iff.mpr ⟨hj, rfl⟩⟩
          obtain ⟨rep2, hgj⟩ := hj2
          refine ⟨?_, ?_, ?_⟩
          · simp only [queriedAt, reportsOf, hcr2, hgi, Option.map_some', Option.getD_some]
            exact h1
          · simp only [wlAfterAt, reportsOf, hcr2, hgi, Option.map_some', Option.getD_some]
            exact h2
          · simp only [queriedAt, reportsOf, hcr2, hgj, Option.map_some', Option.getD_some]
            exact h4 j rep2 hij hgj

theorem claim_C6_witness :
    (jstr "rX") ∉ queriedAt (main_run serverW none 2) 0 ∧
    (jstr "rX") ∈ wlAfterAt (main_run serverW none 2) 0 ∧
    (jstr "rX") ∈ queriedAt (main_run serverW none 2) 1 :=
  claim_C6_watchlist_snapshot serverW none 2 0 1 (jstr "rX")
    (by decide) (by decide) (by decide)

/-- Claim C7: for every address and window, when a page request of the
paginated fetch receives a non-success response (after any number of
successful pages, each carrying a truthy continuation marker), the fetch
returns normally — no exception — with exactly the records accumulated from
the pages already retrieved (the empty list when the first page fails),
and the failed request is not retried: the remaining scripted responses
`rest` are never consumed (the result does not depend on them). -/
theorem claim_C7_silent_partial_failure (address : JValue)
    (ledger_min ledger_max : Nat) (pages : List (List JValue × JValue))
    (s : Nat) (body : JValue) (rest : List HttpResp) (hs : s ≠ 200)
    (hm : ∀ p ∈ pages, pyFalsy p.2 = false) :
    fetch_account_transactions
        (fun _ _ _ => pages.map mkPageResp ++ ⟨s, body⟩ :: rest)
        address ledger_min ledger_max
      = .ok ((pages.map Prod.fst).flatten) := by
  unfold fetch_account_transactions
  simpa using fetchGo_pages pages s body rest [] hs hm

theorem claim_C7_witness :
    fetch_account_transactions
        (fun _ _ _ => [([jstr "t1", jstr "t2"], jstr "mk")].map mkPageResp
          ++ (⟨404, jstr "err"⟩ : HttpResp) :: [mkPageResp ([jstr "t3"], jnull)])
        (jstr "A") 0 1
      = .ok (([([jstr "t1", jstr "t2"], jstr "mk")].map Prod.fst).flatten) :=
  claim_C7_silent_partial_failure (jstr "A") 0 1
    [([jstr "t1", jstr "t2"], jstr "mk")] 404 (jstr "err")
    [mkPageResp ([jstr "t3"], jnull)] (by decide) (by decide)

/-- The run-long balance invariant: the balances equal the fold, from the
empty map, of the transfers recorded in the run's own trace, and every
report's rows and supply were computed from such a fold over a prefix of
that transfer list (the transfers observed up to that day's end). -/
def BalInv (st : RunState) : Prop :=
  st.balances = applyTransfers [] (transfersOfTrace st.trace) ∧
  ∀ rep ∈ st.reports, ∃ ts ts2, transfersOfTrace st.trace = ts ++ ts2 ∧
    rep.balancesRows = nonzeroRows (applyTransfers [] ts) ∧
    rep.supply = circSupply (applyTransfers [] ts)

theorem mainInit_balinv : BalInv mainInitState := by
  constructor
  · rfl
  · intro rep hrep
    exact absurd hrep (List.not_mem_nil rep)

theorem processDay_balinv (server : Server) (day : Nat) (st st2 : RunState)
    (h : processDay server day st = .ok st2) (hinv : BalInv st) : BalInv st2 := by
  obtain ⟨rep, d, hrep, hday, hq, hwa, hd1, hd2, hmono, htr, hnc, hck, hbal,
    hrows, hsup⟩ := processDay_spec server day st st2 h
  obtain ⟨hb0, hreps0⟩ := hinv
  have hb2 : st2.balances = applyTransfers [] (transfersOfTrace st2.trace) := by
    rw [hbal, hb0, htr, transfersOfTrace_append, applyTransfers_append]
  refine ⟨hb2, ?_⟩
  intro rep2 hrep2
  rw [hrep] at hrep2
  rcases List.mem_append.mp hrep2 with hold | hnew
  · obtain ⟨ts, ts2, hts, hr1, hr2⟩ := hreps0 rep2 hold
    refine ⟨ts, ts2 ++ transfersOfTrace d, ?_, hr1, hr2⟩
    rw [htr, transfersOfTrace_append, hts, List.append_assoc]
  · rcases List.mem_singleton.mp hnew with rfl
    refine ⟨transfersOfTrace st2.trace, [], by simp, ?_, ?_⟩
    · rw [hrows, hb2]
    · rw [hsup, hb2]

theorem runDays_balinv (server : Server) : ∀ (n day : Nat) (st st2 : RunState),
    runDays server day n st = .ok st2 → BalInv st → BalInv st2 := by
  intro n
  induction n with
  | zero =>
      intro day st st2 h hinv
      simp only [runDays] at h
      cases h
      exact hinv
  | succ n ih =>
      intro day st st2 h hinv
      simp only [runDays] at h
      cases hd : processDay server day st with
      | error e => rw [hd, ebind_err] at h; exact absurd h (by simp)
      | ok st1 =>
          rw [hd, ebind_ok] at h
          exact ih (day + 1) st1 st2 h (processDay_balinv server day st st1 hd hinv)

/-- Claim C9: on every run — a resumed run with checkpoint `c > 0` included —
the in-memory balance map starts empty (`mainInitState.balances = []`; the
model of `main` takes no database content at all, since nothing in `main`
reads the `pft_transfers` table back), the final balances are exactly the
fold, from the empty map, of the transfers this run itself observed (the
insert events of its own trace), and every day's reported balance rows and
circulating supply are computed from such a fold over a prefix of that
transfer list — so every reported value reflects only transfers observed
during the current run, never transfers recorded by earlier runs. -/
theorem claim_C9_balances_only_current_run (server : Server) (chk : Option Nat)
    (n : Nat) (hok : isOkRun (main_run server chk n) = true) :
    mainInitState.balances = [] ∧
    balancesOf (main_run server chk n)
      = applyTransfers [] (transfersOfTrace (traceOf (main_run server chk n))) ∧
    ∀ i rep, (reportsOf (main_run server chk n)).get? i = some rep →
      ∃ ts ts2, transfersOfTrace (traceOf (main_run server chk n)) = ts ++ ts2 ∧
        rep.balancesRows = nonzeroRows (applyTransfers [] ts) ∧
        rep.supply = circSupply (applyTransfers [] ts) := by
  obtain ⟨r, hr⟩ := (isOkRun_iff _).mp hok
  obtain ⟨st, hrd, hreq⟩ := main_run_ok server chk n r hr
  obtain ⟨hb0, hreps0⟩ := runDays_balinv server n (load_checkpoint chk)
    mainInitState st hrd mainInit_balinv
  have htr : transfersOfTrace (traceOf (main_run server chk n))
      = transfersOfTrace st.trace := by
    rw [hr, hreq]
    simp only [traceOf]
    rw [transfersOfTrace_append]
    simp [transfersOfTrace]
  have hbals : balancesOf (main_run server chk n) = st.balances := by
    rw [hr, hreq]
    rfl
  have hrep2 : reportsOf (main_run server chk n) = st.reports := by
    rw [hr, hreq]
    rfl
  refine ⟨rfl, ?_, ?_⟩
  · rw [hbals, htr, hb0]
  · intro i rep hgi
    rw [hrep2] at hgi
    have hmem : rep ∈ st.reports := List.get?_mem hgi
    obtain ⟨ts, ts2, hts, h1, h2⟩ := hreps0 rep hmem
    exact ⟨ts, ts2, by rw [htr, hts], h1, h2⟩

theorem claim_C9_witness :
    mainInitState.balances = [] ∧
    balancesOf (main_run serverW none 1)
      = applyTransfers [] (transfersOfTrace (traceOf (main_run serverW none 1))) ∧
    ∀ i rep, (reportsOf (main_run serverW none 1)).get? i = some rep →
      ∃ ts ts2, transfersOfTrace (traceOf (main_run serverW none 1)) = ts ++ ts2 ∧
        rep.balancesRows = nonzeroRows (applyTransfers [] ts) ∧
        rep.supply = circSupply (applyTransfers [] ts) :=
  claim_C9_balances_only_current_run serverW none 1 (by decide)

/-- Claim C10 (counterexample): the database connection's commit is not
executed exactly once per run: already on a one-day run against an
unresponsive node the trace holds two commits, because
`create_table_if_not_exists` commits once at startup (source line 39)
before the single end-of-run commit (line 321). -/
theorem claim_C10_cex_two_commits :
    commitCount (main_run serverE none 1) = 2 ∧
    commitCount (main_run serverE none 1) ≠ 1 := by
  refine ⟨by decide, by decide⟩

/-- Claim C10 (amended): the commit is executed exactly twice — once by
table creation before any day is processed and once after all configured
days — and never during the scan itself; for every processed day `k` the
checkpoint is advanced to `start + k + 1` strictly between the two commits,
so during the scan the checkpoint may designate days as complete whose
transfer inserts have not yet been committed. -/
theorem claim_C10_amended_commit_schedule (server : Server) (chk : Option Nat)
    (n k : Nat) (hok : isOkRun (main_run server chk n) = true) (hk : k < n) :
    (traceOf (main_run server chk n)).head? = some Event.commit ∧
    (traceOf (main_run server chk n)).getLast? = some Event.commit ∧
    commitCount (main_run server chk n) = 2 ∧
    Event.commit ∉ middleTrace (main_run server chk n) ∧
    Event.checkpointWrite (load_checkpoint chk + k + 1)
      ∈ middleTrace (main_run server chk n) := by
  obtain ⟨r, hr⟩ := (isOkRun_iff _).mp hok
  obtain ⟨st, hrd, hreq⟩ := main_run_ok server chk n r hr
  obtain ⟨d, htr, hnc, hck, hbal⟩ := runDays_trace_bal server n (load_checkpoint chk)
    mainInitState st hrd
  have htrace : traceOf (main_run server chk n) = Event.commit :: (d ++ [Event.commit]) := by
    rw [hr, hreq]
    simp only [traceOf]
    rw [htr]
    simp [mainInitState]
  have hmid : middleTrace (main_run server chk n) = d := by
    unfold middleTrace
    rw [htrace]
    simp [List.dropLast_concat]
  refine ⟨?_, ?_, ?_, ?_, ?_⟩
  · rw [htrace]; rfl
  · rw [htrace, show Event.commit :: (d ++ [Event.commit])
        = (Event.commit :: d) ++ [Event.commit] from rfl, List.getLast?_concat]
  · unfold commitCount
    rw [htrace]
    have hd0 : d.count Event.commit = 0 :=
      List.count_eq_zero.mpr (fun hmem => (hnc Event.commit hmem) rfl)
    simp [List.count_cons, List.count_append, hd0]
  · rw [hmid]
    intro hmem
    exact (hnc Event.commit hmem) rfl
  · rw [hmid]
    exact hck k hk

theorem claim_C10_witness :
    (traceOf (main_run serverE none 1)).head? = some Event.commit ∧
    (traceOf (main_run serverE none 1)).getLast? = some Event.commit ∧
    commitCount (main_run serverE none 1) = 2 ∧
    Event.commit ∉ middleTrace (main_run serverE none 1) ∧
    Event.checkpointWrite (load_checkpoint none + 0 + 1)
      ∈ middleTrace (main_run serverE none 1) :=
  claim_C10_amended_commit_schedule serverE none 1 0 (by decide) (by decide)
